import Mathlib

/-!
Verification of the fext core data structures (src/fext/eheapq.hpp and
src/fext/edict.hpp): an indexed binary heap with a position index, cached
last-inserted and cached peak values, and a bounded dictionary built on it.

The embedding mirrors the C++ sources operation by operation.  The comparison
callback is fallible (the host object comparison can fail), so it is modelled
as a function into the exception monad.  C++ exceptions carry the state at the
throw point, because the C++ objects keep every mutation performed before the
throw; this is modelled by returning the state inside the error value.
A call of a method declared noexcept that would propagate an exception, or a
call through a null callback pointer, aborts the process; these are modelled
by the distinguished error value FErr.dead, which no modelled catch handler
intercepts, or by an Option-valued result where none means the process died.

Loops are modelled with an explicit fuel argument whose initial value is a
bound on the number of iterations the C++ loop can perform (each sift step
moves strictly along a path of the tree), so the fuel never runs out; fuel
keeps every definition structurally recursive and hence computable by the
kernel.
-/

set_option linter.unusedSectionVars false

namespace Fext

/-- Error conditions of the modelled code: the EHeapQ and EDict exception
classes, std::out_of_range thrown by unordered_map::at on a missing key,
the comparison failure (ObjCmpErr in common.hpp), and process death
(noexcept violation or a call through a null function pointer). -/
inductive FErr : Type where
  | empHeap
  | notFound
  | alreadyPresent
  | noLast
  | outOfRange
  | cmpFail
  | keyError
  | dictAlreadyPresent
  | dead
deriving DecidableEq, Repr

/-- A fallible comparison callback, as in common.hpp:
returns the boolean result of the compare, or fails. -/
def Cmp (α : Type) : Type := α → α → Except Unit Bool

/-- State of EHeapQ (eheapq.hpp): backing vector modelled as its length plus
a total function for the slots, the capacity field `size`, the two cached
items with their presence flags folded into Option, and the position index
`index_map` modelled as a partial map. -/
structure EHeapQ (α : Type) where
  len : Nat
  arr : Nat → α
  size : Nat
  last_item : Option α
  max_item : Option α
  index_map : α → Option Nat

/-- EHEAPQ_DEFAULT_SIZE: std::numeric_limits of size_t, i.e. 2 to the 64 minus 1. -/
def eheapqDefaultSize : Nat := 2 ^ 64 - 1

variable {α : Type} [DecidableEq α] [Inhabited α]

/-- The state built by the EHeapQ constructor. -/
def initH (size : Nat) : EHeapQ α :=
  ⟨0, fun _ => default, size, none, none, fun _ => none⟩

/-- unordered_map::erase by key. -/
def imErase (m : α → Option Nat) (k : α) : α → Option Nat :=
  fun t => if t = k then none else m t

/-- unordered_map::insert: inserts only when the key is not already present. -/
def imInsert (m : α → Option Nat) (k : α) (v : Nat) : α → Option Nat :=
  if (m k).isSome then m else fun t => if t = k then some v else m t

/-- Assignment through unordered_map::at: updates an existing key, and
returns none (std::out_of_range) when the key is missing. -/
def imAtSet (m : α → Option Nat) (k : α) (v : Nat) : Option (α → Option Nat) :=
  if (m k).isSome then some (fun t => if t = k then some v else m t) else none

/-- EHeapQ::set_last_item. -/
def set_last_item (s : EHeapQ α) (item : α) : EHeapQ α :=
  { s with last_item := some item }

/-- EHeapQ::set_max_item. -/
def set_max_item (s : EHeapQ α) (item : α) : EHeapQ α :=
  { s with max_item := some item }

/-- EHeapQ::maybe_del_last_item. -/
def maybe_del_last_item (s : EHeapQ α) (item : α) : EHeapQ α :=
  if s.last_item = some item then { s with last_item := none } else s

/-- EHeapQ::maybe_del_max_item. -/
def maybe_del_max_item (s : EHeapQ α) (item : α) : EHeapQ α :=
  if s.max_item = some item then { s with max_item := none } else s

/-- EHeapQ::maybe_adjust_max.  The method is noexcept but invokes the
comparison, so a comparison failure aborts the process: result none. -/
def maybe_adjust_max (comp : Cmp α) (s : EHeapQ α) (item : α) :
    Option (EHeapQ α) :=
  match s.max_item with
  | none => some s
  | some m =>
    match comp m item with
    | .error _ => none
    | .ok b => some (if b then { s with max_item := some item } else s)

/-- Loop body of EHeapQ::siftdown: follow the path towards the root, swapping
with the parent while the new item compares less, updating the position index
of both swapped elements through unordered_map::at.  The array writes precede
the index writes exactly as in the source, so a failed at() leaves the array
already swapped.  The fuel bounds the iteration count; the path to the root
has at most pos steps, so fuel = pos + 1 is always sufficient. -/
def sdLoop (comp : Cmp α) (startpos : Nat) :
    Nat → Nat → EHeapQ α → Except (FErr × EHeapQ α) (EHeapQ α)
  | 0, _, s => .ok s
  | fuel + 1, pos, s =>
    if startpos < pos then
      let parentpos := (pos - 1) / 2
      let parent := s.arr parentpos
      let newitem := s.arr pos
      match comp newitem parent with
      | .error _ => .error (.cmpFail, s)
      | .ok b =>
        if b then
          let arr2 : Nat → α :=
            fun j => if j = parentpos then newitem else if j = pos then parent else s.arr j
          match imAtSet s.index_map newitem parentpos with
          | none => .error (.outOfRange, { s with arr := arr2 })
          | some m1 =>
            match imAtSet m1 parent pos with
            | none => .error (.outOfRange, { s with arr := arr2, index_map := m1 })
            | some m2 => sdLoop comp startpos fuel parentpos { s with arr := arr2, index_map := m2 }
        else .ok s
    else .ok s

/-- EHeapQ::siftdown: early return on an empty heap, then the loop. -/
def siftdownE (comp : Cmp α) (startpos pos : Nat) (s : EHeapQ α) :
    Except (FErr × EHeapQ α) (EHeapQ α) :=
  if s.len = 0 then .ok s else sdLoop comp startpos (pos + 1) pos s

/-- Loop body of EHeapQ::siftup: walk towards the leaves, always swapping the
current slot with its preferred child (the right child is chosen when the
comparison of left with right returns false; when there is no right child no
comparison is performed and the left child is kept, encoded below by the
constant ok-true branch of the if), updating the position index of both
swapped elements.  Returns the state together with the final position.
The position strictly increases and the loop stops at limit, so
fuel = limit + 1 is always sufficient. -/
def suLoop (comp : Cmp α) (endpos limit : Nat) :
    Nat → Nat → EHeapQ α → Except (FErr × EHeapQ α) (EHeapQ α × Nat)
  | 0, pos, s => .ok (s, pos)
  | fuel + 1, pos, s =>
    if pos < limit then
      let childpos := 2 * pos + 1
      match (if childpos + 1 < endpos then comp (s.arr childpos) (s.arr (childpos + 1)) else .ok true) with
      | .error _ => .error (.cmpFail, s)
      | .ok b =>
        let cp := if b then childpos else childpos + 1
        let tmp1 := s.arr cp
        let tmp2 := s.arr pos
        let arr2 : Nat → α :=
          fun j => if j = cp then tmp2 else if j = pos then tmp1 else s.arr j
        match imAtSet s.index_map tmp2 cp with
        | none => .error (.outOfRange, { s with arr := arr2 })
        | some m1 =>
          match imAtSet m1 tmp1 pos with
          | none => .error (.outOfRange, { s with arr := arr2, index_map := m1 })
          | some m2 => suLoop comp endpos limit fuel cp { s with arr := arr2, index_map := m2 }
    else .ok (s, pos)

/-- EHeapQ::siftup: capture endpos and limit, run the walk to a leaf, then
bubble the element back up with siftdown from the original position. -/
def siftupE (comp : Cmp α) (pos : Nat) (s : EHeapQ α) :
    Except (FErr × EHeapQ α) (EHeapQ α) :=
  let endpos := s.len
  let limit := endpos / 2
  match suLoop comp endpos limit (limit + 1) pos s with
  | .error e => .error e
  | .ok (s1, pos1) => siftdownE comp pos pos1 s1

/-- EHeapQ::pushpop.  The item must not be tracked yet; on a non-empty heap
whose root compares less than the item, the root is replaced, the index map
updated (insert of the new item, then erase of the old root), the heap
resettled from the root, and the caches updated with the new item; otherwise
the item is handed straight back with no state change. -/
def pushpopE (comp : Cmp α) (item : α) (s : EHeapQ α) :
    Except (FErr × EHeapQ α) (α × EHeapQ α) :=
  if (s.index_map item).isSome then .error (.alreadyPresent, s)
  else if 0 < s.len then
    match comp (s.arr 0) item with
    | .error _ => .error (.cmpFail, s)
    | .ok b =>
      if b then
        let to_return := s.arr 0
        let s1 : EHeapQ α :=
          { s with arr := fun j => if j = 0 then item else s.arr j,
                   index_map := imErase (imInsert s.index_map item 0) to_return }
        match siftupE comp 0 s1 with
        | .error e => .error e
        | .ok s2 =>
          let s3 := maybe_del_max_item (set_last_item s2 item) item
          match maybe_adjust_max comp s3 item with
          | none => .error (.dead, s3)
          | some s4 => .ok (to_return, s4)
      else .ok (item, s)
  else .ok (item, s)

/-- EHeapQ::push.  At capacity it delegates to pushpop and reports the evicted
element (the removal callback argument) when one was evicted; otherwise it
inserts the index entry, appends the item and sifts it towards the root,
undoing the insertion (erase of the item and pop_back) when the sift throws.
On success the last-item cache is set, and the max cache is set on a
singleton heap or adjusted otherwise. -/
def pushE (comp : Cmp α) (item : α) (s : EHeapQ α) :
    Except (FErr × EHeapQ α) (Option α × EHeapQ α) :=
  if (s.index_map item).isSome then .error (.alreadyPresent, s)
  else if s.len = s.size then
    match pushpopE comp item s with
    | .error e => .error e
    | .ok (removed, s1) => .ok (if removed = item then none else some removed, s1)
  else
    let s1 : EHeapQ α :=
      { s with index_map := imInsert s.index_map item s.len,
               arr := fun j => if j = s.len then item else s.arr j,
               len := s.len + 1 }
    match siftdownE comp 0 s.len s1 with
    | .error (e, s2) =>
      .error (e, { s2 with index_map := imErase s2.index_map item, len := s2.len - 1 })
    | .ok s2 =>
      let s3 := set_last_item s2 item
      if s3.len = 1 then .ok (none, set_max_item s3 item)
      else
        match maybe_adjust_max comp s3 item with
        | none => .error (.dead, s3)
        | some s4 => .ok (none, s4)

/-- Tail of EHeapQ::pop after the optional move of the last element into the
root slot: truncate, erase the read result (the original root of s0) from
the index, resettle from the root, and drop the matching cached values. -/
def popFinish (comp : Cmp α) (s0 sA : EHeapQ α) :
    Except (FErr × EHeapQ α) (α × EHeapQ α) :=
  let result := s0.arr 0
  let sB : EHeapQ α :=
    { sA with len := sA.len - 1, index_map := imErase sA.index_map result }
  match siftupE comp 0 sB with
  | .error e => .error e
  | .ok sC => .ok (result, maybe_del_max_item (maybe_del_last_item sC result) result)

/-- EHeapQ::pop.  Reads the root, moves the last element into the root slot
(updating its index entry through at, which can throw), truncates, erases the
result from the index, resettles from the root, and drops the matching
cached values. -/
def popE (comp : Cmp α) (s : EHeapQ α) :
    Except (FErr × EHeapQ α) (α × EHeapQ α) :=
  if s.len = 0 then .error (.empHeap, s)
  else if 1 < s.len then
    match imAtSet s.index_map (s.arr (s.len - 1)) 0 with
    | none =>
      .error (.outOfRange,
        { s with arr := fun j => if j = 0 then s.arr (s.len - 1) else s.arr j })
    | some m1 =>
      popFinish comp s
        { s with arr := fun j => if j = 0 then s.arr (s.len - 1) else s.arr j,
                 index_map := m1 }
  else popFinish comp s s

/-- EHeapQ::replace.  Requires a non-empty heap and an untracked item; the
root is swapped for the item (erase of the old root, insert of the item), the
heap resettled from the root, and then the source updates the caches with the
removed previous root, not with the inserted item. -/
def replaceE (comp : Cmp α) (item : α) (s : EHeapQ α) :
    Except (FErr × EHeapQ α) (α × EHeapQ α) :=
  if s.len = 0 then .error (.empHeap, s)
  else if (s.index_map item).isSome then .error (.alreadyPresent, s)
  else
    let result := s.arr 0
    let s1 : EHeapQ α :=
      { s with arr := fun j => if j = 0 then item else s.arr j,
               index_map := imInsert (imErase s.index_map result) item 0 }
    match siftupE comp 0 s1 with
    | .error e => .error e
    | .ok s2 =>
      let s3 := maybe_del_max_item (set_last_item s2 result) result
      match maybe_adjust_max comp s3 result with
      | none => .error (.dead, s3)
      | some s4 => .ok (result, s4)

/-- EHeapQ::remove.  Looks up the index entry of the item; when the item sits
in the last slot the heap is just truncated, otherwise the last element is
written over the slot named by the (possibly stale) index entry, the heap is
truncated, the entry erased, and, only when that slot index is still inside
the shortened heap, the slot is resettled with siftup followed by a siftdown
from the root.  The moved element's own index entry is not updated here. -/
def removeE (comp : Cmp α) (item : α) (s : EHeapQ α) :
    Except (FErr × EHeapQ α) (EHeapQ α) :=
  match s.index_map item with
  | none => .error (.notFound, s)
  | some idx0 =>
    if 0 < s.len ∧ s.arr (s.len - 1) = item then
      let s1 : EHeapQ α :=
        { s with len := s.len - 1, index_map := imErase s.index_map item }
      .ok (maybe_del_last_item (maybe_del_max_item s1 item) item)
    else
      let s2 : EHeapQ α :=
        { s with arr := fun j => if j = idx0 then s.arr (s.len - 1) else s.arr j,
                 len := s.len - 1,
                 index_map := imErase s.index_map item }
      if idx0 < s2.len then
        match siftupE comp idx0 s2 with
        | .error e => .error e
        | .ok s3 =>
          match siftdownE comp 0 idx0 s3 with
          | .error e => .error e
          | .ok s4 => .ok (maybe_del_last_item (maybe_del_max_item s4 item) item)
      else .ok (maybe_del_last_item (maybe_del_max_item s2 item) item)

/-- EHeapQ::clear: empties the heap and the position index, leaving the two
cached values untouched. -/
def clearH (s : EHeapQ α) : EHeapQ α :=
  { s with len := 0, index_map := fun _ => none }

/-- Loop of EHeapQ::set_size: pop while the heap is larger than the new size.
The method is noexcept, so an exception escaping a pop aborts the process
(result none).  Each successful pop shrinks the heap by one, so
fuel = current length is always sufficient. -/
def ssLoop (comp : Cmp α) : Nat → EHeapQ α → Option (EHeapQ α)
  | 0, s => if s.size < s.len then none else some s
  | fuel + 1, s =>
    if s.size < s.len then
      match popE comp s with
      | .error _ => none
      | .ok (_, s1) => ssLoop comp fuel s1
    else some s

/-- EHeapQ::set_size: store the new size, then shrink by repeated pop. -/
def setSizeE (comp : Cmp α) (n : Nat) (s : EHeapQ α) : Option (EHeapQ α) :=
  let s0 : EHeapQ α := { s with size := n }
  ssLoop comp s0.len s0

/-- Scan loop of EHeapQ::get_peak: fold the comparison over the second half
of the array, keeping the element preferred as peak.  fuel = length bounds
the remaining iterations. -/
def peakScan (comp : Cmp α) (s : EHeapQ α) : Nat → Nat → α → Except Unit α
  | 0, _, r => .ok r
  | fuel + 1, i, r =>
    if i < s.len then
      match comp r (s.arr i) with
      | .error _ => .error ()
      | .ok b => peakScan comp s fuel (i + 1) (if b then s.arr i else r)
    else .ok r

/-- EHeapQ::get_peak: on a non-empty heap return the cached max when the
max_item_set flag is up, else scan the slots from len / 2 on and return the
result.  The source then assigns the max_item field alone and never raises
the max_item_set flag, so the written value stays invisible: every other
reader of max_item (get_peak itself, maybe_del_max_item, maybe_adjust_max)
is guarded by the flag, and set_max_item overwrites the value.  Under the
folding of the value and flag pair into an Option, the flagless write is
therefore no state change at all. -/
def getPeakE (comp : Cmp α) (s : EHeapQ α) :
    Except (FErr × EHeapQ α) (α × EHeapQ α) :=
  if s.len = 0 then .error (.empHeap, s)
  else
    match s.max_item with
    | some m => .ok (m, s)
    | none =>
      match peakScan comp s s.len (s.len / 2 + 1) (s.arr (s.len / 2)) with
      | .error _ => .error (.cmpFail, s)
      | .ok r => .ok (r, s)

/-- EHeapQ::get_last: empty heap throws EHeapQEmpty, a missing record throws
EHeapQNoLast, otherwise the cached last item is returned. -/
def getLastE (s : EHeapQ α) : Except (FErr × EHeapQ α) (α × EHeapQ α) :=
  if s.len = 0 then .error (.empHeap, s)
  else
    match s.last_item with
    | none => .error (.noLast, s)
    | some x => .ok (x, s)

/-- EHeapQ::get_top: the root element of a non-empty heap. -/
def getTopE (s : EHeapQ α) : Except (FErr × EHeapQ α) (α × EHeapQ α) :=
  if s.len = 0 then .error (.empHeap, s) else .ok (s.arr 0, s)

/-- The state an operation left behind, whether it returned or threw. -/
def outHeap {β : Type} (f : β → EHeapQ α) : Except (FErr × EHeapQ α) β → EHeapQ α
  | .ok b => f b
  | .error (_, t) => t

/-- A public operation of the heap, for running call sequences. -/
inductive HOp (α : Type) : Type where
  | push (x : α)
  | pushpop (x : α)
  | pop
  | replace (x : α)
  | remove (x : α)
  | setSize (n : Nat)
  | clear
  | getPeak

/-- Outcome of one public call seen by the caller: the state after a normal
return or after a propagated exception, and none when the process died. -/
def stepRes {β : Type} (f : β → EHeapQ α) :
    Except (FErr × EHeapQ α) β → Option (EHeapQ α)
  | .ok b => some (f b)
  | .error (.dead, _) => none
  | .error (_, t) => some t

/-- Execute one public call on the heap.  An exception propagates to the
caller and leaves the object in the state carried by the error; process
death (FErr.dead or a noexcept violation inside set_size) yields none. -/
def stepOp (comp : Cmp α) (op : HOp α) (s : EHeapQ α) : Option (EHeapQ α) :=
  match op with
  | .push x => stepRes Prod.snd (pushE comp x s)
  | .pushpop x => stepRes Prod.snd (pushpopE comp x s)
  | .pop => stepRes Prod.snd (popE comp s)
  | .replace x => stepRes Prod.snd (replaceE comp x s)
  | .remove x => stepRes id (removeE comp x s)
  | .setSize n => setSizeE comp n s
  | .clear => some (clearH s)
  | .getPeak => stepRes Prod.snd (getPeakE comp s)

/-- Run a sequence of public calls from a starting state; none once the
process has died. -/
def runOps (comp : Cmp α) : List (HOp α) → EHeapQ α → Option (EHeapQ α)
  | [], s => some s
  | op :: ops, s =>
    match stepOp comp op s with
    | none => none
    | some s1 => runOps comp ops s1

/-- Run a sequence of push calls, counting the removal-callback
notifications push delivers (push invokes the callback exactly when pushpop
returned an element different from the pushed item). -/
def pushRun (comp : Cmp α) : List α → EHeapQ α → Nat → Option (EHeapQ α × Nat)
  | [], s, acc => some (s, acc)
  | x :: xs, s, acc =>
    match pushE comp x s with
    | .ok (some _, s1) => pushRun comp xs s1 (acc + 1)
    | .ok (none, s1) => pushRun comp xs s1 acc
    | .error (.dead, _) => none
    | .error (_, s1) => pushRun comp xs s1 acc

/-- The comparison returned true: a strictly precedes b. -/
def compOkB (comp : Cmp α) (a b : α) : Bool :=
  match comp a b with
  | .ok true => true
  | _ => false

/-- Boolean check of the heap ordering invariant: no element below the root
compares strictly less than its parent at index (i - 1) / 2. -/
def heapPropB (comp : Cmp α) (s : EHeapQ α) : Bool :=
  (List.range s.len).all fun i =>
    decide (i = 0) || ! compOkB comp (s.arr i) (s.arr ((i - 1) / 2))

/-- The infallible natural-number comparison, std::less on size_t. -/
def natCmp : Cmp Nat := fun a b => .ok (decide (a < b))

/-- Error kind of a fallible heap call, when it failed. -/
def errOf {β : Type} : Except (FErr × EHeapQ α) β → Option FErr
  | .error (e, _) => some e
  | .ok _ => none

/-- State carried by a failed heap call. -/
def errHeapOf {β : Type} : Except (FErr × EHeapQ α) β → Option (EHeapQ α)
  | .error (_, t) => some t
  | .ok _ => none

/-- Returned value of a successful value-returning heap call. -/
def okValOf {β : Type} : Except (FErr × EHeapQ α) (β × EHeapQ α) → Option β
  | .ok (v, _) => some v
  | .error _ => none

/-- State after a successful value-returning heap call. -/
def okHeapOf {β : Type} : Except (FErr × EHeapQ α) (β × EHeapQ α) → Option (EHeapQ α)
  | .ok (_, t) => some t
  | .error _ => none

section EDictModel

/-- EDICT_DEFAULT_SIZE: std::numeric_limits of size_t. -/
def edictDefaultSize : Nat := 2 ^ 64 - 1

variable {K V : Type} [DecidableEq K] [DecidableEq V] [Inhabited K] [Inhabited V]

/-- unordered_map::find on the key-value store, modelled over an association
list. -/
def lookupKV (d : List (K × V)) (k : K) : Option V :=
  match d.find? (fun p => p.1 = k) with
  | some p => some p.2
  | none => none

/-- unordered_map::insert: no effect when the key is already present. -/
def dictInsert (d : List (K × V)) (k : K) (v : V) : List (K × V) :=
  if (lookupKV d k).isSome then d else d ++ [(k, v)]

/-- unordered_map::erase by key. -/
def dictErase (d : List (K × V)) (k : K) : List (K × V) :=
  d.filter fun p => ! decide (p.1 = k)

/-- State of EDict (edict.hpp): configured maximum size, the key-value
hash map, and the eviction-order heap over pairs. -/
structure EDict (K V : Type) where
  size : Nat
  dict : List (K × V)
  heap : EHeapQ (K × V)

/-- The state built by the EDict constructor: an empty dictionary whose
internal heap has the default (unbounded) capacity. -/
def initD (size : Nat) : EDict K V :=
  ⟨size, [], initH eheapqDefaultSize⟩

/-- EDict::set.  The flag cb records whether the caller passed the two
callback pointers; EDict::set invokes removed_callback on eviction and
added_callback at the end without any null check, so with cb = false those
calls go through a null pointer and abort the process (FErr.dead).  A
heap-level eviction inside push would likewise invoke the null callback push
was given.  The dict insert happens after the heap push, and the eviction
pop is performed whenever the heap outgrew the configured size. -/
def dSet (comp : Cmp (K × V)) (cb : Bool) (k : K) (v : V) (s : EDict K V) :
    Except (FErr × EDict K V) (EDict K V) :=
  if (lookupKV s.dict k).isSome then .error (.dictAlreadyPresent, s)
  else
    match pushE comp (k, v) s.heap with
    | .error (e, h1) => .error (e, { s with heap := h1 })
    | .ok (some _, h1) => .error (.dead, { s with heap := h1 })
    | .ok (none, h1) =>
      let s1 : EDict K V := { s with heap := h1, dict := dictInsert s.dict k v }
      if s1.size < s1.heap.len then
        match popE comp s1.heap with
        | .error (e, h2) => .error (e, { s1 with heap := h2 })
        | .ok (removed, h2) =>
          if cb then
            .ok { s1 with heap := h2, dict := dictErase s1.dict removed.1 }
          else .error (.dead, { s1 with heap := h2 })
      else if cb then .ok s1 else .error (.dead, s1)

/-- EDict::get: value stored under the key, or EDictKeyError. -/
def dGet (s : EDict K V) (k : K) : Except FErr V :=
  match lookupKV s.dict k with
  | some v => .ok v
  | none => .error .keyError

/-- EDict::set_or_replace.  When the key is present, the old pair is removed
from the heap and the dictionary, then set is attempted; on failure (other
than process death) the old pair is reinserted through set called with null
callbacks, and the original exception is rethrown when that reinsertion
returns.  The value of the old pair is the snapshot the source reads through
its (by then invalidated) iterator. -/
def dSetOrReplace (comp : Cmp (K × V)) (cb : Bool) (k : K) (v : V)
    (s : EDict K V) : Except (FErr × EDict K V) (EDict K V) :=
  match lookupKV s.dict k with
  | some v1 =>
    match removeE comp (k, v1) s.heap with
    | .error (e, h1) => .error (e, { s with heap := h1 })
    | .ok h1 =>
      let s1 : EDict K V := { s with heap := h1, dict := dictErase s.dict k }
      match dSet comp cb k v s1 with
      | .ok s2 => .ok s2
      | .error (.dead, sx) => .error (.dead, sx)
      | .error (e, s1x) =>
        match dSet comp false k v1 s1x with
        | .ok s2x => .error (e, s2x)
        | .error (e2, s2x) => .error (e2, s2x)
  | none => dSet comp cb k v s

instance {ε β : Type} [DecidableEq ε] [DecidableEq β] : DecidableEq (Except ε β)
  | .ok a, .ok b =>
    if h : a = b then .isTrue (by rw [h])
    else .isFalse fun hc => h (Except.ok.inj hc)
  | .ok _, .error _ => .isFalse fun hc => Except.noConfusion hc
  | .error _, .ok _ => .isFalse fun hc => Except.noConfusion hc
  | .error a, .error b =>
    if h : a = b then .isTrue (by rw [h])
    else .isFalse fun hc => h (Except.error.inj hc)

/-- Error kind of a fallible dict call, when it failed. -/
def derrOf {β : Type} : Except (FErr × EDict K V) β → Option FErr
  | .error (e, _) => some e
  | .ok _ => none

/-- State carried by a failed dict call. -/
def derrStateOf {β : Type} : Except (FErr × EDict K V) β → Option (EDict K V)
  | .error (_, t) => some t
  | .ok _ => none

/-- State after a successful dict call. -/
def dokStateOf : Except (FErr × EDict K V) (EDict K V) → Option (EDict K V)
  | .ok t => some t
  | .error _ => none

end EDictModel

section Traces

/-- A default heap to extract from Option results in closed statements. -/
def dfltH : EHeapQ Nat := initH 0

/-- Trace for the index-coherence claim: build the heap 0 1 2 3, then remove
the element 1. -/
def c1State : EHeapQ Nat :=
  (runOps natCmp
    [HOp.push 0, HOp.push 1, HOp.push 2, HOp.push 3, HOp.remove 1]
    (initH eheapqDefaultSize)).getD dfltH

/-- Trace for the peak claim: build the heap 0 1 6 5, then remove 1 and
remove 5. -/
def c4State : EHeapQ Nat :=
  (runOps natCmp
    [HOp.push 0, HOp.push 1, HOp.push 6, HOp.push 5,
     HOp.remove 1, HOp.remove 5]
    (initH eheapqDefaultSize)).getD dfltH

/-- Trace for the heap-property claim: continue the previous trace with
push 3, pop (which raises std::out_of_range mid-sift) and a final push 9
that returns normally. -/
def c3State : EHeapQ Nat :=
  (runOps natCmp
    [HOp.push 0, HOp.push 1, HOp.push 6, HOp.push 5,
     HOp.remove 1, HOp.remove 5, HOp.push 3, HOp.pop, HOp.push 9]
    (initH eheapqDefaultSize)).getD dfltH

/-- Trace for the pushpop claim: reach a state whose heap is empty while the
position index still holds a stale entry for 6. -/
def c10State : EHeapQ Nat :=
  (runOps natCmp
    [HOp.push 0, HOp.push 1, HOp.push 6, HOp.push 5,
     HOp.remove 1, HOp.remove 5, HOp.remove 0, HOp.pop]
    (initH eheapqDefaultSize)).getD dfltH

/-- Trace for the replace / get_last claim: push 1 then replace it by 2. -/
def c5State : EHeapQ Nat :=
  (runOps natCmp [HOp.push 1, HOp.replace 2] (initH eheapqDefaultSize)).getD dfltH

/-- Comparison that fails exactly on comparing 3 with 0, used to inject a
comparison failure at the second sift level of a push. -/
def c6cmp : Cmp Nat := fun a b =>
  if a = 3 ∧ b = 0 then .error () else .ok (decide (a < b))

/-- Heap 0 5 6 7 built with the injected comparison (which never fires during
the build). -/
def c6Base : EHeapQ Nat :=
  (runOps c6cmp [HOp.push 0, HOp.push 5, HOp.push 6, HOp.push 7]
    (initH eheapqDefaultSize)).getD dfltH

/-- The failing push of the error-safety claim. -/
def c6Res : Except (FErr × EHeapQ Nat) (Option Nat × EHeapQ Nat) :=
  pushE c6cmp 3 c6Base

/-- Pair comparison of DefaultCompare in edict.hpp: compare the values. -/
def pairCmp : Cmp (String × Nat) := fun p q => .ok (decide (p.2 < q.2))

/-- The bounded-map eviction scenario: capacity 2, set a 10, set b 5,
set c 1, with real callbacks. -/
def c2State : EDict String Nat :=
  (dokStateOf (do
    let s1 ← dSet pairCmp true "a" 10 (initD 2)
    let s2 ← dSet pairCmp true "b" 5 s1
    dSet pairCmp true "c" 1 s2)).getD (initD 0)

/-- Comparison for the replacement-rollback claim: comparing any pair whose
value is 2 fails (the injected failure on the new pair). -/
def cmp7 : Cmp (String × Nat) := fun p q =>
  if p.2 = 2 then .error () else .ok (decide (p.2 < q.2))

/-- Map holding k then j, built with the injected comparison (which never
fires during the build). -/
def c7Base : EDict String Nat :=
  (dokStateOf (do
    let s1 ← dSet cmp7 true "k" 1 (initD edictDefaultSize)
    dSet cmp7 true "j" 0 s1)).getD (initD 0)

/-- The failing replacement of the rollback claim. -/
def c7Res : Except (FErr × EDict String Nat) (EDict String Nat) :=
  dSetOrReplace cmp7 true "k" 2 c7Base

end Traces

/-- C1 (code defect): after push 0, push 1, push 2, push 3 and remove 1, the
element 3 resides at array index 1 of the 3-element heap, yet the position
index still maps 3 to index 3, which is not even a valid index; remove never
updated the entry of the element it moved into the vacated slot, so the
position index does not map every stored element to the index where it
resides. -/
theorem c1_index_incoherent_after_remove :
    c1State.len = 3 ∧ c1State.arr 1 = 3 ∧ c1State.index_map 3 = some 3 ∧
    ¬ 3 < c1State.len := by decide

/-- C3 (code defect): after push 0, push 1, push 6, push 5, remove 1,
remove 5, push 3, pop (which throws std::out_of_range mid-sift because of
the stale position index left by remove) and a final push 9 that returns
normally, the backing array is 5, 3, 9: the element 3 at index 1 compares
strictly less than its parent 5 at index 0, so the heap ordering invariant
does not survive every sequence of public calls. -/
theorem c3_heap_property_violated :
    c3State.len = 3 ∧ c3State.arr 0 = 5 ∧ c3State.arr 1 = 3 ∧
    heapPropB natCmp c3State = false := by decide

/-- C4 (code defect): after push 0, push 1, push 6, push 5, remove 1 and
remove 5, the stale position index made remove 5 silently drop the element 6
while leaving 5 stored, and the cached peak 6 was not invalidated; get_peak
then returns 6 although only 0 and 5 are stored. -/
theorem c4_peak_returns_departed_element :
    okValOf (getPeakE natCmp c4State) = some 6 ∧ c4State.len = 2 ∧
    c4State.max_item = some 6 ∧ (∀ i, i < c4State.len → c4State.arr i ≠ 6) := by
  decide

/-- C5 (code defect): after push 1 and replace 2 the heap stores exactly the
element 2, yet get_last returns 1, the removed previous root: replace stores
the popped root as the last item instead of the inserted one, so get_last
does not return the most recently pushed element. -/
theorem c5_get_last_returns_removed_root :
    okValOf (getLastE c5State) = some 1 ∧ c5State.len = 1 ∧
    c5State.arr 0 = 2 ∧ (∀ i, i < c5State.len → c5State.arr i ≠ 1) := by decide

/-- C6 (code defect): pushing 3 onto the heap 0, 5, 6, 7 with a comparison
that fails on compare 3 0 (the second sift level, after one swap already
happened) propagates the failure, but the state is not the one from before
the call: the rollback pops the wrong slot, so 3 remains stored at index 1
with no position entry, while 5 was dropped from storage yet kept a stale
position entry pointing at slot 4. -/
theorem c6_push_rollback_incomplete :
    errOf c6Res = some .cmpFail ∧
    ((errHeapOf c6Res).getD dfltH).len = 4 ∧
    ((errHeapOf c6Res).getD dfltH).arr 1 = 3 ∧
    ((errHeapOf c6Res).getD dfltH).index_map 3 = none ∧
    ((errHeapOf c6Res).getD dfltH).index_map 5 = some 4 ∧
    c6Base.len = 4 ∧ c6Base.arr 1 = 5 ∧ c6Base.index_map 5 = some 1 := by decide

/-- C10 counterexample: a reachable state whose heap is empty but whose
position index still holds a stale entry for 6; pushpop 6 on this empty heap
raises AlreadyPresent instead of returning the item without error. -/
theorem c10_pushpop_empty_raises :
    c10State.len = 0 ∧ errOf (pushpopE natCmp 6 c10State) = some .alreadyPresent := by
  decide

omit [Inhabited α] in
/-- C10 as amended: pushpop of an item without a position-index entry, called
on an empty heap, raises no error, returns the item itself, and leaves the
whole state (storage, position index, last-inserted and cached-peak
tracking) unchanged. -/
theorem c10_amended_pushpop_empty (comp : Cmp α) (item : α) (s : EHeapQ α)
    (hlen : s.len = 0) (hidx : s.index_map item = none) :
    pushpopE comp item s = .ok (item, s) := by
  simp [pushpopE, hlen, hidx]

/-- Witness for the amended C10 theorem at a concrete input. -/
theorem c10_amended_pushpop_empty_witness :
    pushpopE natCmp 7 (initH 5) = .ok (7, initH 5) :=
  c10_amended_pushpop_empty natCmp 7 (initH 5) rfl rfl

/-- C2 counterexample: with capacity 2 and the ascending-by-value ordering,
set a 10, set b 5, set c 1 leaves get a succeeding with 10 and get c failing,
contrary to the claim that the entry with value 10 is evicted and
get c returns 1. -/
theorem c2_scenario_contradicted :
    dGet c2State "a" = .ok 10 ∧ dGet c2State "c" = .error .keyError := by decide

/-- C2 as amended: the overflow on the third set evicts the heap root, the
entry least under the configured ascending-by-value ordering, which is the
just-inserted pair c 1: afterwards get c fails the key error, get a returns
10, get b returns 5, and the size is 2. -/
theorem c2_amended_eviction :
    dGet c2State "a" = .ok 10 ∧ dGet c2State "b" = .ok 5 ∧
    dGet c2State "c" = .error .keyError ∧ c2State.dict.length = 2 := by decide

/-- C7 (code defect): on the map holding k with value 1 (and j with 0), a
set of k to 2 whose comparison fails during the replacement does reinsert
the pair k 1 state-wise, but the rollback calls set with null callback
pointers and set unconditionally invokes the added callback: the process
dies on a null-pointer call instead of propagating the comparison failure to
the caller. -/
theorem c7_rollback_dies_on_null_callback :
    derrOf c7Res = some .dead ∧
    lookupKV ((derrStateOf c7Res).getD (initD 0)).dict "k" = some 1 ∧
    ((derrStateOf c7Res).getD (initD 0)).dict.length = 2 ∧
    c7Base.dict.length = 2 ∧ lookupKV c7Base.dict "k" = some 1 := by decide

/-- C9 counterexample: two pushes on a heap of capacity 1, where the second
item 3 does not outrank the root 5, deliver zero removal notifications,
not the claimed max of 0 and pushes minus capacity, which is 1. -/
theorem c9_bounce_delivers_no_notification :
    (pushRun natCmp [5, 3] (initH 1) 0).map Prod.snd = some 0 ∧
    [5, 3].length - 1 = 1 := by decide

section FrameLemmas

omit [Inhabited α]

/-- The cache setters and invalidators keep length and capacity. -/
theorem set_last_item_dims (s : EHeapQ α) (i : α) :
    (set_last_item s i).len = s.len ∧ (set_last_item s i).size = s.size :=
  ⟨rfl, rfl⟩

theorem maybe_del_last_item_dims (s : EHeapQ α) (i : α) :
    (maybe_del_last_item s i).len = s.len ∧ (maybe_del_last_item s i).size = s.size := by
  unfold maybe_del_last_item; split <;> exact ⟨rfl, rfl⟩

theorem maybe_del_max_item_dims (s : EHeapQ α) (i : α) :
    (maybe_del_max_item s i).len = s.len ∧ (maybe_del_max_item s i).size = s.size := by
  unfold maybe_del_max_item; split <;> exact ⟨rfl, rfl⟩

theorem maybe_adjust_max_dims (comp : Cmp α) (s : EHeapQ α) (i : α) (s' : EHeapQ α)
    (h : maybe_adjust_max comp s i = some s') :
    s'.len = s.len ∧ s'.size = s.size := by
  unfold maybe_adjust_max at h
  split at h
  · cases h; exact ⟨rfl, rfl⟩
  · split at h
    · cases h
    · split at h <;> (cases h; exact ⟨rfl, rfl⟩)

/-- The siftdown loop only permutes slots and rewrites index entries:
length and capacity are untouched, whether it returns or throws. -/
theorem sdLoop_dims (comp : Cmp α) (sp : Nat) :
    ∀ fuel pos s, (outHeap id (sdLoop comp sp fuel pos s)).len = s.len ∧
      (outHeap id (sdLoop comp sp fuel pos s)).size = s.size := by
  intro fuel
  induction fuel with
  | zero => intro pos s; exact ⟨rfl, rfl⟩
  | succ n ih =>
    intro pos s
    rw [sdLoop]
    split
    · dsimp only
      split
      · exact ⟨rfl, rfl⟩
      · split
        · split
          · exact ⟨rfl, rfl⟩
          · split
            · exact ⟨rfl, rfl⟩
            · exact ih _ _
        · exact ⟨rfl, rfl⟩
    · exact ⟨rfl, rfl⟩

theorem siftdownE_dims (comp : Cmp α) (sp pos : Nat) (s : EHeapQ α) :
    (outHeap id (siftdownE comp sp pos s)).len = s.len ∧
    (outHeap id (siftdownE comp sp pos s)).size = s.size := by
  rw [siftdownE]
  split
  · exact ⟨rfl, rfl⟩
  · exact sdLoop_dims comp sp _ pos s

/-- The siftup walk likewise only permutes slots and rewrites index
entries. -/
theorem suLoop_dims (comp : Cmp α) (ep lim : Nat) :
    ∀ fuel pos s, (outHeap Prod.fst (suLoop comp ep lim fuel pos s)).len = s.len ∧
      (outHeap Prod.fst (suLoop comp ep lim fuel pos s)).size = s.size := by
  intro fuel
  induction fuel with
  | zero => intro pos s; exact ⟨rfl, rfl⟩
  | succ n ih =>
    intro pos s
    rw [suLoop]
    split
    · dsimp only
      split
      · exact ⟨rfl, rfl⟩
      · split
        · exact ⟨rfl, rfl⟩
        · split
          · exact ⟨rfl, rfl⟩
          · exact ih _ _
    · exact ⟨rfl, rfl⟩

theorem siftupE_dims (comp : Cmp α) (pos : Nat) (s : EHeapQ α) :
    (outHeap id (siftupE comp pos s)).len = s.len ∧
    (outHeap id (siftupE comp pos s)).size = s.size := by
  rw [siftupE]
  cases hsu : suLoop comp s.len (s.len / 2) (s.len / 2 + 1) pos s with
  | error e =>
    have hf := suLoop_dims comp s.len (s.len / 2) (s.len / 2 + 1) pos s
    rw [hsu] at hf
    exact hf
  | ok p =>
    obtain ⟨s1, pos1⟩ := p
    have hf := suLoop_dims comp s.len (s.len / 2) (s.len / 2 + 1) pos s
    rw [hsu] at hf
    have hd := siftdownE_dims comp pos pos1 s1
    exact ⟨hd.1.trans hf.1, hd.2.trans hf.2⟩

/-- pushpop keeps length and capacity on every path, whether it returns
normally, throws, or dies in the noexcept cache adjustment. -/
theorem pushpopE_dims (comp : Cmp α) (item : α) (s : EHeapQ α) :
    (outHeap Prod.snd (pushpopE comp item s)).len = s.len ∧
    (outHeap Prod.snd (pushpopE comp item s)).size = s.size := by
  rw [pushpopE]
  split
  · exact ⟨rfl, rfl⟩
  · split
    · split
      · exact ⟨rfl, rfl⟩
      · split
        · dsimp only
          cases hsu : siftupE comp 0
              { s with arr := fun j => if j = 0 then item else s.arr j,
                       index_map := imErase (imInsert s.index_map item 0) (s.arr 0) } with
          | error e =>
            obtain ⟨e1, t⟩ := e
            have hd := siftupE_dims comp 0
              { s with arr := fun j => if j = 0 then item else s.arr j,
                       index_map := imErase (imInsert s.index_map item 0) (s.arr 0) }
            rw [hsu] at hd
            exact hd
          | ok s2 =>
            have hd := siftupE_dims comp 0
              { s with arr := fun j => if j = 0 then item else s.arr j,
                       index_map := imErase (imInsert s.index_map item 0) (s.arr 0) }
            rw [hsu] at hd
            have h3l := maybe_del_max_item_dims (set_last_item s2 item) item
            dsimp only
            cases hma : maybe_adjust_max comp
                (maybe_del_max_item (set_last_item s2 item) item) item with
            | none =>
              dsimp only [outHeap]
              exact ⟨h3l.1.trans hd.1, h3l.2.trans hd.2⟩
            | some s4 =>
              have h4 := maybe_adjust_max_dims comp
                (maybe_del_max_item (set_last_item s2 item) item) item s4 hma
              dsimp only [outHeap]
              exact ⟨(h4.1.trans h3l.1).trans hd.1, (h4.2.trans h3l.2).trans hd.2⟩
        · exact ⟨rfl, rfl⟩
    · exact ⟨rfl, rfl⟩

/-- The pop tail keeps the capacity of sA and never grows past its length,
whether it returns or throws. -/
theorem popFinish_dims (comp : Cmp α) (s0 sA : EHeapQ α) :
    (outHeap Prod.snd (popFinish comp s0 sA)).size = sA.size ∧
    (outHeap Prod.snd (popFinish comp s0 sA)).len ≤ sA.len := by
  rw [popFinish]
  have hd := siftupE_dims comp 0
    { sA with len := sA.len - 1, index_map := imErase sA.index_map (s0.arr 0) }
  cases hsu : siftupE comp 0
      { sA with len := sA.len - 1, index_map := imErase sA.index_map (s0.arr 0) } with
  | error e =>
    obtain ⟨e1, t⟩ := e
    rw [hsu] at hd
    dsimp only [outHeap] at hd ⊢
    exact ⟨hd.2, le_trans (le_of_eq hd.1) (Nat.sub_le _ _)⟩
  | ok sC =>
    rw [hsu] at hd
    dsimp only [outHeap] at hd ⊢
    have h1 := maybe_del_last_item_dims sC (s0.arr 0)
    have h2 := maybe_del_max_item_dims (maybe_del_last_item sC (s0.arr 0)) (s0.arr 0)
    refine ⟨(h2.2.trans h1.2).trans hd.2, ?_⟩
    calc (maybe_del_max_item (maybe_del_last_item sC (s0.arr 0)) (s0.arr 0)).len
        = sC.len := h2.1.trans h1.1
      _ = sA.len - 1 := hd.1
      _ ≤ sA.len := Nat.sub_le _ _

/-- pop keeps the capacity and never grows the heap, whether it returns or
throws. -/
theorem popE_dims (comp : Cmp α) (s : EHeapQ α) :
    (outHeap Prod.snd (popE comp s)).size = s.size ∧
    (outHeap Prod.snd (popE comp s)).len ≤ s.len := by
  rw [popE]
  split
  · exact ⟨rfl, Nat.le_refl _⟩
  · split
    · split
      · exact ⟨rfl, Nat.le_refl _⟩
      · exact popFinish_dims comp s _
    · exact popFinish_dims comp s s

/-- pop of a successful call returns the capacity unchanged. -/
theorem popE_ok_size (comp : Cmp α) (s : EHeapQ α) (r : α) (s' : EHeapQ α)
    (h : popE comp s = .ok (r, s')) : s'.size = s.size := by
  have hd := (popE_dims comp s).1
  rw [h] at hd
  exact hd

/-- replace keeps length and capacity on every path. -/
theorem replaceE_dims (comp : Cmp α) (item : α) (s : EHeapQ α) :
    (outHeap Prod.snd (replaceE comp item s)).len = s.len ∧
    (outHeap Prod.snd (replaceE comp item s)).size = s.size := by
  rw [replaceE]
  split
  · exact ⟨rfl, rfl⟩
  · split
    · exact ⟨rfl, rfl⟩
    · dsimp only
      have hd := siftupE_dims comp 0
        { s with arr := fun j => if j = 0 then item else s.arr j,
                 index_map := imInsert (imErase s.index_map (s.arr 0)) item 0 }
      cases hsu : siftupE comp 0
          { s with arr := fun j => if j = 0 then item else s.arr j,
                   index_map := imInsert (imErase s.index_map (s.arr 0)) item 0 } with
      | error e =>
        obtain ⟨e1, t⟩ := e
        rw [hsu] at hd
        exact hd
      | ok s2 =>
        rw [hsu] at hd
        dsimp only [outHeap] at hd
        have h3 := maybe_del_max_item_dims (set_last_item s2 (s.arr 0)) (s.arr 0)
        dsimp only
        cases hma : maybe_adjust_max comp
            (maybe_del_max_item (set_last_item s2 (s.arr 0)) (s.arr 0)) (s.arr 0) with
        | none =>
          dsimp only [outHeap]
          exact ⟨h3.1.trans hd.1, h3.2.trans hd.2⟩
        | some s4 =>
          have h4 := maybe_adjust_max_dims comp
            (maybe_del_max_item (set_last_item s2 (s.arr 0)) (s.arr 0)) (s.arr 0) s4 hma
          dsimp only [outHeap]
          exact ⟨(h4.1.trans h3.1).trans hd.1, (h4.2.trans h3.2).trans hd.2⟩

/-- remove keeps the capacity and never grows the heap. -/
theorem removeE_dims (comp : Cmp α) (item : α) (s : EHeapQ α) :
    (outHeap id (removeE comp item s)).size = s.size ∧
    (outHeap id (removeE comp item s)).len ≤ s.len := by
  rw [removeE]
  split
  · exact ⟨rfl, Nat.le_refl _⟩
  · rename_i idx0 hidx
    split
    · dsimp only [outHeap]
      have h1 := maybe_del_max_item_dims
        { s with len := s.len - 1, index_map := imErase s.index_map item } item
      have h2 := maybe_del_last_item_dims
        (maybe_del_max_item
          { s with len := s.len - 1, index_map := imErase s.index_map item } item) item
      exact ⟨h2.2.trans h1.2, le_trans (le_of_eq (h2.1.trans h1.1)) (Nat.sub_le _ _)⟩
    · dsimp only
      split
      · have hu := siftupE_dims comp idx0
          { s with arr := fun j => if j = idx0 then s.arr (s.len - 1) else s.arr j,
                   len := s.len - 1, index_map := imErase s.index_map item }
        cases hsu : siftupE comp idx0
            { s with arr := fun j => if j = idx0 then s.arr (s.len - 1) else s.arr j,
                     len := s.len - 1, index_map := imErase s.index_map item } with
        | error e =>
          obtain ⟨e1, t⟩ := e
          rw [hsu] at hu
          dsimp only [outHeap] at hu ⊢
          exact ⟨hu.2, le_trans (le_of_eq hu.1) (Nat.sub_le _ _)⟩
        | ok s3 =>
          rw [hsu] at hu
          dsimp only [outHeap] at hu
          dsimp only
          have hv := siftdownE_dims comp 0 idx0 s3
          cases hsd : siftdownE comp 0 idx0 s3 with
          | error e =>
            obtain ⟨e1, t⟩ := e
            rw [hsd] at hv
            dsimp only [outHeap] at hv ⊢
            exact ⟨hv.2.trans hu.2, le_trans (le_of_eq (hv.1.trans hu.1)) (Nat.sub_le _ _)⟩
          | ok s4 =>
            rw [hsd] at hv
            dsimp only [outHeap] at hv ⊢
            have h1 := maybe_del_max_item_dims s4 item
            have h2 := maybe_del_last_item_dims (maybe_del_max_item s4 item) item
            refine ⟨((h2.2.trans h1.2).trans hv.2).trans hu.2, ?_⟩
            calc (maybe_del_last_item (maybe_del_max_item s4 item) item).len
                = s4.len := h2.1.trans h1.1
              _ = s3.len := hv.1
              _ = s.len - 1 := hu.1
              _ ≤ s.len := Nat.sub_le _ _
      · dsimp only [outHeap]
        have h1 := maybe_del_max_item_dims
          { s with arr := fun j => if j = idx0 then s.arr (s.len - 1) else s.arr j,
                   len := s.len - 1, index_map := imErase s.index_map item } item
        have h2 := maybe_del_last_item_dims
          (maybe_del_max_item
            { s with arr := fun j => if j = idx0 then s.arr (s.len - 1) else s.arr j,
                     len := s.len - 1, index_map := imErase s.index_map item } item) item
        exact ⟨h2.2.trans h1.2, le_trans (le_of_eq (h2.1.trans h1.1)) (Nat.sub_le _ _)⟩

/-- get_peak keeps length and capacity: it only touches the peak cache. -/
theorem getPeakE_dims (comp : Cmp α) (s : EHeapQ α) :
    (outHeap Prod.snd (getPeakE comp s)).len = s.len ∧
    (outHeap Prod.snd (getPeakE comp s)).size = s.size := by
  rw [getPeakE]
  split
  · exact ⟨rfl, rfl⟩
  · split
    · exact ⟨rfl, rfl⟩
    · split
      · exact ⟨rfl, rfl⟩
      · exact ⟨rfl, rfl⟩

/-- The set_size shrink loop: a surviving state respects its own bound and
keeps the capacity it started with. -/
theorem ssLoop_inv (comp : Cmp α) :
    ∀ fuel s s', ssLoop comp fuel s = some s' →
      s'.len ≤ s'.size ∧ s'.size = s.size := by
  intro fuel
  induction fuel with
  | zero =>
    intro s s' h
    rw [ssLoop] at h
    split at h
    · cases h
    · cases h
      rename_i hns
      exact ⟨Nat.le_of_not_lt hns, rfl⟩
  | succ n ih =>
    intro s s' h
    rw [ssLoop] at h
    split at h
    · cases hp : popE comp s with
      | error e => rw [hp] at h; cases h
      | ok v =>
        obtain ⟨r, s1⟩ := v
        rw [hp] at h
        have hsz := popE_ok_size comp s r s1 hp
        have := ih s1 s' h
        exact ⟨this.1, this.2.trans hsz⟩
    · cases h
      rename_i hns
      exact ⟨Nat.le_of_not_lt hns, rfl⟩

/-- set_size leaves a surviving heap within the new bound, with the new
bound stored. -/
theorem setSizeE_some (comp : Cmp α) (n : Nat) (s s' : EHeapQ α)
    (h : setSizeE comp n s = some s') : s'.len ≤ n ∧ s'.size = n := by
  rw [setSizeE] at h
  have hi := ssLoop_inv comp _ _ _ h
  have hsz : s'.size = n := hi.2
  exact ⟨hsz ▸ hi.1, hsz⟩

/-- Growing the capacity of a heap that respects its current capacity never
pops: only the stored bound changes. -/
theorem setSizeE_grow (comp : Cmp α) (n : Nat) (s : EHeapQ α)
    (hls : s.len ≤ s.size) (hn : s.size ≤ n) :
    setSizeE comp n s = some { s with size := n } := by
  rw [setSizeE]
  cases hl : s.len with
  | zero =>
    rw [ssLoop]
    split
    · rename_i hlt
      have hx : n < 0 := hlt
      exact absurd hx (by omega)
    · rfl
  | succ k =>
    rw [ssLoop]
    split
    · rename_i hlt
      have hx : n < k + 1 := hlt
      exact absurd hx (by omega)
    · rfl

/-- A successful push keeps the capacity and either went through pushpop at
full capacity (length unchanged) or appended one element below capacity. -/
theorem pushE_ok (comp : Cmp α) (item : α) (s : EHeapQ α) (ev : Option α)
    (s' : EHeapQ α) (h : pushE comp item s = .ok (ev, s')) :
    s'.size = s.size ∧
      ((s.len = s.size ∧ s'.len = s.len) ∨
        (s.len ≠ s.size ∧ s'.len = s.len + 1 ∧ ev = none)) := by
  rw [pushE] at h
  split at h
  · cases h
  · split at h
    · rename_i hfull
      cases hp : pushpopE comp item s with
      | error e => rw [hp] at h; cases h
      | ok v =>
        obtain ⟨removed, s1⟩ := v
        rw [hp] at h
        rw [Except.ok.injEq, Prod.mk.injEq] at h
        obtain ⟨hev, hs1⟩ := h
        have hd := pushpopE_dims comp item s
        rw [hp] at hd
        dsimp only [outHeap] at hd
        subst hs1
        exact ⟨hd.2, Or.inl ⟨hfull, hd.1⟩⟩
    · rename_i hnfull
      dsimp only at h
      cases hsd : siftdownE comp 0 s.len
          { s with index_map := imInsert s.index_map item s.len,
                   arr := fun j => if j = s.len then item else s.arr j,
                   len := s.len + 1 } with
      | error e =>
        obtain ⟨e1, t⟩ := e
        rw [hsd] at h
        cases h
      | ok s2 =>
        rw [hsd] at h
        have hd := siftdownE_dims comp 0 s.len
          { s with index_map := imInsert s.index_map item s.len,
                   arr := fun j => if j = s.len then item else s.arr j,
                   len := s.len + 1 }
        rw [hsd] at hd
        dsimp only [outHeap] at hd
        dsimp only at h
        split at h
        · rw [Except.ok.injEq, Prod.mk.injEq] at h
          obtain ⟨hev, hs1⟩ := h
          subst hs1
          refine ⟨hd.2, Or.inr ⟨hnfull, ?_, hev.symm⟩⟩
          exact hd.1
        · cases hma : maybe_adjust_max comp (set_last_item s2 item) item with
          | none => rw [hma] at h; cases h
          | some s4 =>
            rw [hma] at h
            rw [Except.ok.injEq, Prod.mk.injEq] at h
            obtain ⟨hev, hs1⟩ := h
            subst hs1
            have h4 := maybe_adjust_max_dims comp (set_last_item s2 item) item _ hma
            exact ⟨h4.2.trans hd.2, Or.inr ⟨hnfull, h4.1.trans hd.1, hev.symm⟩⟩

/-- A throwing push keeps the capacity, and keeps the length unless the
process died in the noexcept cache adjustment after the append. -/
theorem pushE_err (comp : Cmp α) (item : α) (s : EHeapQ α) (e : FErr)
    (s' : EHeapQ α) (h : pushE comp item s = .error (e, s')) :
    s'.size = s.size ∧ (e = .dead ∨ s'.len = s.len) := by
  rw [pushE] at h
  split at h
  · rw [Except.error.injEq, Prod.mk.injEq] at h
    obtain ⟨he, hs1⟩ := h
    subst hs1
    exact ⟨rfl, Or.inr rfl⟩
  · split at h
    · cases hp : pushpopE comp item s with
      | error e0 =>
        obtain ⟨e1, t⟩ := e0
        rw [hp] at h
        rw [Except.error.injEq, Prod.mk.injEq] at h
        obtain ⟨he, hs1⟩ := h
        have hd := pushpopE_dims comp item s
        rw [hp] at hd
        dsimp only [outHeap] at hd
        subst hs1
        exact ⟨hd.2, Or.inr hd.1⟩
      | ok v =>
        obtain ⟨removed, s1⟩ := v
        rw [hp] at h
        cases h
    · dsimp only at h
      cases hsd : siftdownE comp 0 s.len
          { s with index_map := imInsert s.index_map item s.len,
                   arr := fun j => if j = s.len then item else s.arr j,
                   len := s.len + 1 } with
      | error e0 =>
        obtain ⟨e1, t⟩ := e0
        rw [hsd] at h
        rw [Except.error.injEq, Prod.mk.injEq] at h
        obtain ⟨he, hs1⟩ := h
        have hd := siftdownE_dims comp 0 s.len
          { s with index_map := imInsert s.index_map item s.len,
                   arr := fun j => if j = s.len then item else s.arr j,
                   len := s.len + 1 }
        rw [hsd] at hd
        dsimp only [outHeap] at hd
        subst hs1
        obtain ⟨hdl, hds⟩ := hd
        refine ⟨hds, Or.inr ?_⟩
        show t.len - 1 = s.len
        omega
      | ok s2 =>
        rw [hsd] at h
        have hd := siftdownE_dims comp 0 s.len
          { s with index_map := imInsert s.index_map item s.len,
                   arr := fun j => if j = s.len then item else s.arr j,
                   len := s.len + 1 }
        rw [hsd] at hd
        dsimp only [outHeap] at hd
        dsimp only at h
        split at h
        · cases h
        · cases hma : maybe_adjust_max comp (set_last_item s2 item) item with
          | none =>
            rw [hma] at h
            rw [Except.error.injEq, Prod.mk.injEq] at h
            obtain ⟨he, hs1⟩ := h
            subst hs1
            exact ⟨hd.2, Or.inl he.symm⟩
          | some s4 =>
            rw [hma] at h
            cases h

/-- Decompose the caller-visible outcome of a call. -/
theorem stepRes_cases {β : Type} (f : β → EHeapQ α)
    (r : Except (FErr × EHeapQ α) β) (s' : EHeapQ α)
    (h : stepRes f r = some s') :
    (∃ b, r = .ok b ∧ f b = s') ∨
      (∃ e t, r = .error (e, t) ∧ e ≠ .dead ∧ t = s') := by
  cases r with
  | ok b => exact Or.inl ⟨b, rfl, Option.some.inj h⟩
  | error et =>
    obtain ⟨e, t⟩ := et
    cases e
    case dead => exact absurd h (by simp [stepRes])
    all_goals
      simp only [stepRes, Option.some.injEq] at h
      exact Or.inr ⟨_, t, rfl, by decide, h⟩

/-- One public call keeps the capacity invariant of the heap. -/
theorem stepOp_inv (comp : Cmp α) (op : HOp α) (s s' : EHeapQ α)
    (hs : s.len ≤ s.size) (h : stepOp comp op s = some s') :
    s'.len ≤ s'.size := by
  cases op with
  | push x =>
    rcases stepRes_cases Prod.snd (pushE comp x s) s' h with
      ⟨⟨ev, s1⟩, hr, hfs⟩ | ⟨e, t, hr, hne, ht⟩
    · have hs1 : s1 = s' := hfs
      rw [← hs1]
      obtain ⟨hsz, hc | hc⟩ := pushE_ok comp x s ev s1 hr
      · omega
      · omega
    · rw [← ht]
      obtain ⟨hsz, hd | hl⟩ := pushE_err comp x s e t hr
      · exact absurd hd hne
      · omega
  | pushpop x =>
    have hd := pushpopE_dims comp x s
    rcases stepRes_cases Prod.snd (pushpopE comp x s) s' h with
      ⟨⟨r0, s1⟩, hr, hfs⟩ | ⟨e, t, hr, hne, ht⟩
    · have hs1 : s1 = s' := hfs
      rw [hr] at hd
      simp only [outHeap] at hd
      rw [← hs1]
      omega
    · rw [hr] at hd
      simp only [outHeap] at hd
      rw [← ht]
      omega
  | pop =>
    have hd := popE_dims comp s
    rcases stepRes_cases Prod.snd (popE comp s) s' h with
      ⟨⟨r0, s1⟩, hr, hfs⟩ | ⟨e, t, hr, hne, ht⟩
    · have hs1 : s1 = s' := hfs
      rw [hr] at hd
      simp only [outHeap] at hd
      rw [← hs1]
      omega
    · rw [hr] at hd
      simp only [outHeap] at hd
      rw [← ht]
      omega
  | replace x =>
    have hd := replaceE_dims comp x s
    rcases stepRes_cases Prod.snd (replaceE comp x s) s' h with
      ⟨⟨r0, s1⟩, hr, hfs⟩ | ⟨e, t, hr, hne, ht⟩
    · have hs1 : s1 = s' := hfs
      rw [hr] at hd
      simp only [outHeap] at hd
      rw [← hs1]
      omega
    · rw [hr] at hd
      simp only [outHeap] at hd
      rw [← ht]
      omega
  | remove x =>
    have hd := removeE_dims comp x s
    rcases stepRes_cases id (removeE comp x s) s' h with
      ⟨s1, hr, hfs⟩ | ⟨e, t, hr, hne, ht⟩
    · have hs1 : s1 = s' := hfs
      rw [hr] at hd
      simp only [outHeap, id_eq] at hd
      rw [← hs1]
      omega
    · rw [hr] at hd
      simp only [outHeap, id_eq] at hd
      rw [← ht]
      omega
  | setSize n =>
    have := setSizeE_some comp n s s' h
    omega
  | clear =>
    have hs1 : clearH s = s' := Option.some.inj h
    subst hs1
    exact Nat.zero_le _
  | getPeak =>
    have hd := getPeakE_dims comp s
    rcases stepRes_cases Prod.snd (getPeakE comp s) s' h with
      ⟨⟨r0, s1⟩, hr, hfs⟩ | ⟨e, t, hr, hne, ht⟩
    · have hs1 : s1 = s' := hfs
      rw [hr] at hd
      simp only [outHeap] at hd
      rw [← hs1]
      omega
    · rw [hr] at hd
      simp only [outHeap] at hd
      rw [← ht]
      omega

/-- Any run of public calls keeps the capacity invariant. -/
theorem runOps_inv (comp : Cmp α) :
    ∀ (ops : List (HOp α)) (s s' : EHeapQ α), s.len ≤ s.size →
      runOps comp ops s = some s' → s'.len ≤ s'.size := by
  intro ops
  induction ops with
  | nil =>
    intro s s' hs h
    rw [runOps] at h
    cases h
    exact hs
  | cons op ops ih =>
    intro s s' hs h
    rw [runOps] at h
    cases hst : stepOp comp op s with
    | none => rw [hst] at h; cases h
    | some s1 =>
      rw [hst] at h
      exact ih s1 s' (stepOp_inv comp op s s1 hs hst) h

end FrameLemmas

section PushRunLemmas

omit [Inhabited α]

/-- pushRun on a successful non-evicting push. -/
theorem pushRun_cons_ok_none (comp : Cmp α) (x : α) (xs : List α)
    (s s1 : EHeapQ α) (acc : Nat) (hp : pushE comp x s = .ok (none, s1)) :
    pushRun comp (x :: xs) s acc = pushRun comp xs s1 acc := by
  rw [pushRun, hp]

/-- pushRun on a push that delivered a removal notification. -/
theorem pushRun_cons_ok_some (comp : Cmp α) (x : α) (xs : List α)
    (s s1 : EHeapQ α) (acc : Nat) (r : α)
    (hp : pushE comp x s = .ok (some r, s1)) :
    pushRun comp (x :: xs) s acc = pushRun comp xs s1 (acc + 1) := by
  rw [pushRun, hp]

/-- pushRun on a push that threw an exception the caller survives. -/
theorem pushRun_cons_err (comp : Cmp α) (x : α) (xs : List α)
    (s s1 : EHeapQ α) (acc : Nat) (e : FErr) (hne : e ≠ .dead)
    (hp : pushE comp x s = .error (e, s1)) :
    pushRun comp (x :: xs) s acc = pushRun comp xs s1 acc := by
  rw [pushRun, hp]
  cases e <;> first | rfl | exact absurd rfl hne

/-- pushRun on a push that killed the process. -/
theorem pushRun_cons_dead (comp : Cmp α) (x : α) (xs : List α)
    (s s1 : EHeapQ α) (acc : Nat)
    (hp : pushE comp x s = .error (.dead, s1)) :
    pushRun comp (x :: xs) s acc = none := by
  rw [pushRun, hp]

/-- Counting invariant for push sequences: starting from a heap within its
capacity C, the notifications accumulated on top of acc stay bounded by the
number of remaining pushes minus the remaining free space. -/
theorem pushRun_bound (comp : Cmp α) (C : Nat) :
    ∀ (xs : List α) (s : EHeapQ α) (acc : Nat) (out : EHeapQ α × Nat),
      s.size = C → s.len ≤ C → pushRun comp xs s acc = some out →
      out.2 ≤ acc + (xs.length - (C - s.len)) := by
  intro xs
  induction xs with
  | nil =>
    intro s acc out hsz hle h
    rw [pushRun] at h
    cases h
    show acc ≤ acc + (List.length [] - (C - s.len))
    omega
  | cons x xs ih =>
    intro s acc out hsz hle h
    cases hp : pushE comp x s with
    | ok v =>
      obtain ⟨ev, s1⟩ := v
      obtain ⟨hsz1, hc | hc⟩ := pushE_ok comp x s ev s1 hp
      · obtain ⟨hfull, hlen⟩ := hc
        cases ev with
        | none =>
          rw [pushRun_cons_ok_none comp x xs s s1 acc hp] at h
          have hb := ih s1 acc out (hsz1.trans hsz) (by omega) h
          simp only [List.length_cons]
          omega
        | some r =>
          rw [pushRun_cons_ok_some comp x xs s s1 acc r hp] at h
          have hb := ih s1 (acc + 1) out (hsz1.trans hsz) (by omega) h
          simp only [List.length_cons]
          omega
      · obtain ⟨hne, hlen, hev⟩ := hc
        subst hev
        rw [pushRun_cons_ok_none comp x xs s s1 acc hp] at h
        have hb := ih s1 acc out (hsz1.trans hsz) (by omega) h
        simp only [List.length_cons]
        omega
    | error et =>
      obtain ⟨e, s1⟩ := et
      by_cases hd : e = .dead
      · subst hd
        rw [pushRun_cons_dead comp x xs s s1 acc hp] at h
        cases h
      · rw [pushRun_cons_err comp x xs s s1 acc e hd hp] at h
        obtain ⟨hsz1, hdd | hl⟩ := pushE_err comp x s e s1 hp
        · exact absurd hdd hd
        · have hb := ih s1 acc out (hsz1.trans hsz) (by omega) h
          simp only [List.length_cons]
          omega

end PushRunLemmas

/-- C9 as amended: on a heap constructed with capacity C, a sequence of push
calls that completes delivers at most max of 0 and pushes minus C removal
notifications; equality can fail because a push whose item does not outrank
the current root of a full heap is handed back without any notification. -/
theorem c9_amended_notification_bound (comp : Cmp α) (C : Nat) (xs : List α)
    (s : EHeapQ α) (n : Nat)
    (h : pushRun comp xs (initH C) 0 = some (s, n)) :
    n ≤ xs.length - C := by
  have hb := pushRun_bound comp C xs (initH C) 0 (s, n) rfl (Nat.zero_le _) h
  simpa [initH] using hb

/-- Witness for the amended C9 bound: pushes 1, 2, 3 on capacity 1 deliver
two notifications, within the bound. -/
theorem c9_amended_notification_bound_witness :
    ((pushRun natCmp [1, 2, 3] (initH 1) 0).getD (dfltH, 0)).2 ≤
      [1, 2, 3].length - 1 :=
  c9_amended_notification_bound natCmp 1 [1, 2, 3]
    ((pushRun natCmp [1, 2, 3] (initH 1) 0).getD (dfltH, 0)).1
    ((pushRun natCmp [1, 2, 3] (initH 1) 0).getD (dfltH, 0)).2 (by rfl)

/-- C8: after any run of public calls on a heap constructed with capacity C
that leaves the process alive, the number of stored elements never exceeds
the configured capacity; set_size to a larger bound changes only the stored
bound (growing never evicts), and any completed set_size call (the shrink is
repeated pop by definition) leaves at most the requested number of
elements, with the new bound stored. -/
theorem c8_capacity_invariant (comp : Cmp α) (C : Nat) (ops : List (HOp α))
    (s : EHeapQ α) (hrun : runOps comp ops (initH C) = some s) :
    s.len ≤ s.size ∧
    (∀ n, s.size ≤ n → setSizeE comp n s = some { s with size := n }) ∧
    (∀ n s', setSizeE comp n s = some s' → s'.len ≤ n ∧ s'.size = n) := by
  have hinv : s.len ≤ s.size :=
    runOps_inv comp ops (initH C) s (Nat.zero_le _) hrun
  exact ⟨hinv, fun n hn => setSizeE_grow comp n s hinv hn,
    fun n s' h => setSizeE_some comp n s s' h⟩

/-- Witness for C8 at a concrete run: two pushes on a heap of capacity 3. -/
theorem c8_capacity_invariant_witness :
    ((runOps natCmp [HOp.push 5, HOp.push 7] (initH 3)).getD dfltH).len ≤
      ((runOps natCmp [HOp.push 5, HOp.push 7] (initH 3)).getD dfltH).size :=
  (c8_capacity_invariant natCmp 3 [HOp.push 5, HOp.push 7]
    ((runOps natCmp [HOp.push 5, HOp.push 7] (initH 3)).getD dfltH) (by rfl)).1

end Fext



